import Mathlib

/-!
Verification of the Dupletti duplicate-file finder against its specification.

The Rust sources are shallowly embedded: the sqlite store becomes an explicit
state record, SQL statements become pure functions on that record, byte blobs
become lists of naturals below 256, and the fallible operations return
`Except` values.  Machine integers (`i64`, `u64`, `i16`, `u16`) are modelled
as `Int`/`Nat`; wherever overflow could matter the development proves the
relevant bounds instead.
-/

namespace Dupletti

/-- Row of the `file_digests` relation, mirroring struct `FileDigest` in
`database.rs`: `id INTEGER PRIMARY KEY, path TEXT UNIQUE NOT NULL,
digest BLOB, size INTEGER`. -/
structure FileRow where
  id : Int
  path : String
  digest : List Nat
  size : Nat
deriving DecidableEq, Repr

/-- Error kinds surfaced by store operations.  The source returns `rusqlite`
errors or `SimpleError` values; section 7 of the spec names the kinds. -/
inductive StoreErr where
  | ignoredInsert
  | uniqueViolation
  | notFound
  | noSuchTable
deriving DecidableEq, Repr

/-- State of the sqlite database file.  Each relation is `none` while the
table does not exist and `some rows` once it does; `nextId` models sqlite's
automatic INTEGER PRIMARY KEY assignment for inserts that omit the id. -/
structure DBState where
  file_digests : Option (List FileRow)
  video_histograms : Option (List (Int × List Nat))
  video_hash : Option (List (Int × List Nat))
  nextId : Int
deriving DecidableEq, Repr

/-- Translation of `Database::new` (`database.rs` lines 30 to 52).  With
`reset` set it executes DROP TABLE IF EXISTS on `file_digests` and on the
legacy `video_histograms` relation, then CREATE TABLE IF NOT EXISTS
`file_digests`.  No statement mentions the `video_hash` relation. -/
def Database.new (s : DBState) (reset : Bool) : DBState :=
  let s1 := if reset then { s with file_digests := none, video_histograms := none } else s
  match s1.file_digests with
  | none => { s1 with file_digests := some [] }
  | some _ => s1

/-- Translation of `Database::insert_filedigest` (`database.rs` lines 73 to
85): INSERT OR IGNORE of (path, digest, size); when the statement reports
zero affected rows — which sqlite does exactly when the UNIQUE path
constraint ignored the row — the function returns an error. -/
def insert_filedigest (s : DBState) (f : FileRow) : Except StoreErr DBState :=
  match s.file_digests with
  | none => .error .noSuchTable
  | some rows =>
    if rows.any fun r => r.path = f.path then
      .error .ignoredInsert
    else
      .ok { s with
              file_digests := some (rows ++ [⟨s.nextId, f.path, f.digest, f.size⟩]),
              nextId := s.nextId + 1 }

/-- Translation of `Database::lookup_filedigest` (`database.rs` lines 87 to
101): SELECT by id; `query_row` yields a QueryReturnedNoRows error when no
row matches, modelled as `notFound`. -/
def lookup_filedigest (s : DBState) (fid : Int) : Except StoreErr FileRow :=
  match s.file_digests with
  | none => .error .noSuchTable
  | some rows =>
    match rows.find? fun r => r.id = fid with
    | none => .error .notFound
    | some r => .ok r

/-- Translation of the store-level `Database::rename_file` (`interface.rs`
lines 13 to 22): a single UPDATE of path by id whose affected-row count is
never inspected.  The UPDATE itself fails only on a UNIQUE path collision,
which can happen only when a row with the id exists. -/
def db_rename_file (s : DBState) (fid : Int) (newPath : String) : Except StoreErr DBState :=
  match s.file_digests with
  | none => .error .noSuchTable
  | some rows =>
    if (rows.any fun r => r.id = fid) ∧ rows.any fun r => r.path = newPath ∧ r.id ≠ fid then
      .error .uniqueViolation
    else
      .ok { s with
              file_digests :=
                some (rows.map fun r => if r.id = fid then { r with path := newPath } else r) }

/-- Translation of the route-level `rename_file` (`interface.rs` lines 75 to
85): look the id up (propagating its error), rename on disk when the stored
path exists there, then update the store.  The filesystem is abstracted to
the set of paths that exist, which is all this function inspects. -/
def interface_rename_file (s : DBState) (fsPaths : List String) (fid : Int)
    (newName : String) : Except StoreErr (String × DBState) := do
  let file ← lookup_filedigest s fid
  let status := if file.path ∈ fsPaths then "success" else "does-not-exist"
  let s1 ← db_rename_file s fid newName
  return (status, s1)

/-- Example store used as the concrete input of several counterexamples:
one committed video row and one committed `video_hash` histogram. -/
def exampleStore : DBState :=
  { file_digests := some [⟨1, "/tmp/a.mp4", [0, 1, 2, 3], 1⟩],
    video_histograms := some [],
    video_hash := some [(1, [7, 7])],
    nextId := 2 }

/-- C1, divergence witness.  Opening with reset set to true leaves the
pinned `video_hash` relation untouched: its stale row survives, and on a
fresh store where it never existed it still does not exist after `open`.
The claim demands that after `open` with reset both relations exist and are
empty. -/
theorem c1_reset_leaves_video_hash_untouched :
    (Database.new exampleStore true).video_hash = some [(1, [7, 7])] ∧
    (Database.new exampleStore true).video_hash ≠ some [] ∧
    (Database.new exampleStore true).file_digests = some [] ∧
    (Database.new { file_digests := none, video_histograms := none,
                    video_hash := none, nextId := 1 } true).video_hash = none := by
  refine ⟨rfl, ?_, rfl, rfl⟩
  decide

/-- Fresh store: both relations exist and are empty. -/
def emptyStore : DBState :=
  { file_digests := some [],
    video_histograms := some [],
    video_hash := some [],
    nextId := 1 }

/-- C5, counterexample.  On a store that contains no row with id 1, the
store-level `Database::rename_file` reports success and leaves the store
unchanged, contrary to the claim that it fails with NotFound. -/
theorem c5_rename_missing_id_reports_success :
    db_rename_file emptyStore 1 "/tmp/b" = .ok emptyStore := by
  rfl

/-- C5, amended claim.  For every id that matches no committed row, the
store-level `Database::rename_file` succeeds and leaves the store exactly
unchanged, while the route-level `rename_file` — which first runs
`lookup_filedigest` — fails with NotFound for that id. -/
theorem c5_rename_missing_id_behaviour (s : DBState) (rows : List FileRow) (fid : Int)
    (p : String) (hrows : s.file_digests = some rows)
    (habsent : ∀ r ∈ rows, r.id ≠ fid) :
    db_rename_file s fid p = .ok s ∧
    ∀ fsPaths, interface_rename_file s fsPaths fid p = .error .notFound := by
  obtain ⟨fd, vhist, vhash, nid⟩ := s
  have hfd : fd = some rows := hrows
  subst hfd
  have hany : (rows.any fun r => decide (r.id = fid)) = false := by
    simp only [List.any_eq_false, decide_eq_true_eq]
    exact habsent
  have hmap : (rows.map fun r => if r.id = fid then { r with path := p } else r) = rows := by
    have h1 : ∀ r ∈ rows, (if r.id = fid then { r with path := p } else r) = r := by
      intro r hr
      simp [habsent r hr]
    exact (List.map_congr_left h1).trans (List.map_id rows)
  have hfind : (rows.find? fun r => decide (r.id = fid)) = none := by
    apply List.find?_eq_none.mpr
    intro r hr
    simp [habsent r hr]
  constructor
  · simp [db_rename_file, hany, hmap]
  · intro fsPaths
    simp [interface_rename_file, lookup_filedigest, hfind, Bind.bind, Except.bind]

/-- C5 witness: the amended behaviour at a concrete store and id. -/
theorem c5_rename_missing_id_behaviour_witness :
    db_rename_file exampleStore 99 "/tmp/zz" = .ok exampleStore ∧
    interface_rename_file exampleStore ["/tmp/a.mp4"] 99 "/tmp/zz" = .error .notFound := by
  obtain ⟨h1, h2⟩ :=
    c5_rename_missing_id_behaviour exampleStore [⟨1, "/tmp/a.mp4", [0, 1, 2, 3], 1⟩] 99
      "/tmp/zz" rfl (by decide)
  exact ⟨h1, h2 ["/tmp/a.mp4"]⟩

/-- Store contents visible after a call: the new state on success and the
unchanged connection state on error, since a failed statement (and a
transaction dropped without commit) leaves the database as it was. -/
def afterInsert (s : DBState) (f : FileRow) : DBState :=
  match insert_filedigest s f with
  | .ok s1 => s1
  | .error _ => s

/-- Digests the store holds for a given path, in row order. -/
def digestsOfPath (s : DBState) (p : String) : List (List Nat) :=
  match s.file_digests with
  | none => []
  | some rows => (rows.filter fun r => r.path = p).map fun r => r.digest

/-- C6.  Inserting a fresh path succeeds; re-inserting the same path with a
different digest is reported to the caller as an error (the IgnoredInsert
kind, raised when INSERT OR IGNORE affects zero rows), and afterwards the
store still holds exactly the first digest for that path. -/
theorem c6_duplicate_path_insert (s0 : DBState) (rows : List FileRow) (p : String)
    (d1 d2 : List Nat) (sz1 sz2 : Nat) (hrows : s0.file_digests = some rows)
    (hfresh : ∀ r ∈ rows, r.path ≠ p) :
    ∃ s1, insert_filedigest s0 ⟨0, p, d1, sz1⟩ = .ok s1 ∧
      insert_filedigest s1 ⟨0, p, d2, sz2⟩ = .error .ignoredInsert ∧
      digestsOfPath (afterInsert s1 ⟨0, p, d2, sz2⟩) p = [d1] := by
  obtain ⟨fd, vhist, vhash, nid⟩ := s0
  have hfd : fd = some rows := hrows
  subst hfd
  have hany : (rows.any fun r => decide (r.path = p)) = false := by
    simp only [List.any_eq_false, decide_eq_true_eq]
    exact hfresh
  have hfilter : (rows.filter fun r => decide (r.path = p)) = [] := by
    apply List.filter_eq_nil_iff.mpr
    intro r hr
    simp [hfresh r hr]
  refine ⟨{ file_digests := some (rows ++ [⟨nid, p, d1, sz1⟩]),
            video_histograms := vhist, video_hash := vhash, nextId := nid + 1 },
          ?_, ?_, ?_⟩
  · simp [insert_filedigest, hany]
  · simp [insert_filedigest, List.any_append, hany]
  · simp [afterInsert, insert_filedigest, List.any_append, hany, digestsOfPath,
      List.filter_append, hfilter]

/-- C6 witness: the duplicate-path scenario at the literal store of spec
scenario 4. -/
theorem c6_duplicate_path_insert_witness :
    emptyStore.file_digests = some [] ∧
    ∃ s1, insert_filedigest emptyStore ⟨0, "/tmp/a", [0xAA], 1⟩ = .ok s1 ∧
      insert_filedigest s1 ⟨0, "/tmp/a", [0xAB], 1⟩ = .error .ignoredInsert ∧
      digestsOfPath (afterInsert s1 ⟨0, "/tmp/a", [0xAB], 1⟩) "/tmp/a" = [[0xAA]] :=
  ⟨rfl, c6_duplicate_path_insert emptyStore [] "/tmp/a" [0xAA] [0xAB] 1 1 rfl (by decide)⟩

/-- Translation of the loop body of `Database::insert_many_filedigests`
(`filehashing.rs` lines 17 to 33): INSERT OR IGNORE per row inside one
transaction, returning an error as soon as a statement affects zero rows. -/
def insert_many_loop : List FileRow → Int → List FileRow → Except StoreErr (List FileRow × Int)
  | rows, nId, [] => .ok (rows, nId)
  | rows, nId, f :: fs =>
    if rows.any fun r => r.path = f.path then .error .ignoredInsert
    else insert_many_loop (rows ++ [⟨nId, f.path, f.digest, f.size⟩]) (nId + 1) fs

/-- Translation of `Database::insert_many_filedigests`: the transaction
commits when every row inserted, and is rolled back (dropped without
commit) when any row failed.  The returned pair is (call result, store
contents after the call). -/
def insert_many_filedigests (s : DBState) (files : List FileRow) :
    Except StoreErr DBState × DBState :=
  match s.file_digests with
  | none => (.error .noSuchTable, s)
  | some rows =>
    match insert_many_loop rows s.nextId files with
    | .ok (rows1, n1) =>
      let s1 := { s with file_digests := some rows1, nextId := n1 }
      (.ok s1, s1)
    | .error e => (.error e, s)

theorem insert_many_loop_ok (files : List FileRow) :
    ∀ rows nId rows1 n1, insert_many_loop rows nId files = .ok (rows1, n1) →
      rows1.map (·.path) = rows.map (·.path) ++ files.map (·.path) ∧
      (∀ f ∈ files, f.path ∉ rows.map (·.path)) ∧
      (files.map (·.path)).Nodup := by
  induction files with
  | nil =>
    intro rows nId rows1 n1 h
    simp only [insert_many_loop] at h
    cases h
    simp
  | cons f fs ih =>
    intro rows nId rows1 n1 h
    simp only [insert_many_loop] at h
    by_cases hc : rows.any fun r => decide (r.path = f.path)
    · simp [hc] at h
    · simp only [hc, if_false, Bool.false_eq_true] at h
      obtain ⟨h1, h2, h3⟩ := ih _ _ _ _ h
      have hnotmem : f.path ∉ rows.map (·.path) := by
        intro hmem
        obtain ⟨r, hr, hrp⟩ := List.mem_map.mp hmem
        exact hc (List.any_eq_true.mpr ⟨r, hr, by simp [hrp]⟩)
      have hfs : ∀ g ∈ fs, g.path ∉ rows.map (·.path) ∧ g.path ≠ f.path := by
        intro g hg
        have := h2 g hg
        simp only [List.map_append, List.map_cons, List.map_nil, List.mem_append,
          List.mem_singleton] at this
        push_neg at this
        exact this
      refine ⟨?_, ?_, ?_⟩
      · simp only [h1, List.map_append, List.map_cons, List.map_nil]
        simp
      · intro g hg
        rcases List.mem_cons.mp hg with rfl | hg2
        · exact hnotmem
        · exact (hfs g hg2).1
      · simp only [List.map_cons, List.nodup_cons]
        refine ⟨?_, h3⟩
        intro hmem
        obtain ⟨g, hg, hgp⟩ := List.mem_map.mp hmem
        exact (hfs g hg).2 hgp

/-- C7.  Batch insert is all-or-nothing: on success every path of the batch
is visible afterwards (the committed rows are exactly the old rows followed
by the batch), any duplicate path — against the store or within the batch —
forces an error, and on any error the store after the call is exactly the
store before it. -/
theorem c7_batch_insert_all_or_nothing (s : DBState) (files rows : List FileRow)
    (hrows : s.file_digests = some rows) :
    (∀ s1, (insert_many_filedigests s files).1 = .ok s1 →
      (insert_many_filedigests s files).2 = s1 ∧
      ∃ rows1, s1.file_digests = some rows1 ∧
        rows1.map (·.path) = rows.map (·.path) ++ files.map (·.path)) ∧
    ((∃ f ∈ files, f.path ∈ rows.map (·.path)) ∨ ¬ (files.map (·.path)).Nodup →
      ∃ e, (insert_many_filedigests s files).1 = .error e) ∧
    (∀ e, (insert_many_filedigests s files).1 = .error e →
      (insert_many_filedigests s files).2 = s) := by
  obtain ⟨fd, vhist, vhash, nid⟩ := s
  have hfd : fd = some rows := hrows
  subst hfd
  rcases hloop : insert_many_loop rows nid files with e2 | ⟨rows1, n1⟩
  · have hres : insert_many_filedigests ⟨some rows, vhist, vhash, nid⟩ files =
        (.error e2, ⟨some rows, vhist, vhash, nid⟩) := by
      simp [insert_many_filedigests, hloop]
    refine ⟨?_, ?_, ?_⟩
    · intro s1 h
      rw [hres] at h
      cases h
    · intro _
      exact ⟨e2, by rw [hres]⟩
    · intro e h
      rw [hres]
  · have hres : insert_many_filedigests ⟨some rows, vhist, vhash, nid⟩ files =
        (.ok ⟨some rows1, vhist, vhash, n1⟩, ⟨some rows1, vhist, vhash, n1⟩) := by
      simp [insert_many_filedigests, hloop]
    obtain ⟨h1, h2, h3⟩ := insert_many_loop_ok files rows nid rows1 n1 hloop
    refine ⟨?_, ?_, ?_⟩
    · intro s1 h
      rw [hres] at h
      simp only [Except.ok.injEq] at h
      subst h
      rw [hres]
      exact ⟨rfl, rows1, rfl, h1⟩
    · intro hdup
      rcases hdup with ⟨f, hf, hfp⟩ | hnd
      · exact absurd hfp (h2 f hf)
      · exact absurd h3 hnd
    · intro e h
      rw [hres] at h
      cases h

/-- Two-row demonstration batch with fresh distinct paths. -/
def demoBatch : List FileRow :=
  [⟨0, "/tmp/a", [1], 1⟩, ⟨0, "/tmp/b", [2], 1⟩]

/-- C7 witness: the all-or-nothing statement at a concrete empty store and a
concrete two-row batch. -/
theorem c7_batch_insert_all_or_nothing_witness :
    emptyStore.file_digests = some [] ∧
    ((∀ s1, (insert_many_filedigests emptyStore demoBatch).1 = .ok s1 →
        (insert_many_filedigests emptyStore demoBatch).2 = s1 ∧
        ∃ rows1, s1.file_digests = some rows1 ∧
          rows1.map (·.path) = ([] : List FileRow).map (·.path) ++ demoBatch.map (·.path)) ∧
      ((∃ f ∈ demoBatch, f.path ∈ ([] : List FileRow).map (·.path)) ∨
          ¬ (demoBatch.map (·.path)).Nodup →
        ∃ e, (insert_many_filedigests emptyStore demoBatch).1 = .error e) ∧
      (∀ e, (insert_many_filedigests emptyStore demoBatch).1 = .error e →
        (insert_many_filedigests emptyStore demoBatch).2 = emptyStore)) :=
  ⟨rfl, c7_batch_insert_all_or_nothing emptyStore demoBatch [] rfl⟩

/-- ASCII lowercasing, as sqlite's lower() applies it to TEXT values. -/
def asciiLower (c : Char) : Char :=
  if 'A' ≤ c ∧ c ≤ 'Z' then Char.ofNat (c.toNat + 32) else c

/-- Value of the SQL expression lower(substr(path, -3)): the last three
characters of the path (the whole path when shorter), lowercased. -/
def sqliteExt3 (path : String) : List Char :=
  ((path.data.reverse.take 3).reverse).map asciiLower

/-- Extension list exactly as written in the SQL of
`Database::get_files_without_videohash` (`videohash.rs` lines 24 to 39),
including its duplicated avi entry. -/
def sqlExtList : List (List Char) :=
  ["mp4".data, "avi".data, "mkv".data, "wmv".data, "avi".data, "flv".data]

/-- The five extensions the spec pins for the `video_hash` variant. -/
def specExtList : List (List Char) :=
  ["mp4".data, "avi".data, "mkv".data, "wmv".data, "flv".data]

/-- Translation of `Database::get_files_without_videohash`: one SELECT over
`file_digests` keeping the rows whose id has no `video_hash` row and whose
ext column — lower(substr(path, -3)) — is in the SQL list, projected to
(id, path, size) in row order. -/
def get_files_without_videohash (s : DBState) :
    Except StoreErr (List (Int × String × Nat)) :=
  match s.file_digests, s.video_hash with
  | some rows, some vh =>
    .ok ((rows.filter fun r =>
        !(vh.any fun hr => hr.1 = r.id) && decide (sqliteExt3 r.path ∈ sqlExtList)).map
      fun r => (r.id, r.path, r.size))
  | _, _ => .error .noSuchTable

/-- Store holding a single row whose path contains no dot at all but ends in
the three characters m, p, 4. -/
def dotlessStore : DBState :=
  { file_digests := some [⟨1, "/data/foomp4", [0], 5⟩],
    video_histograms := some [],
    video_hash := some [],
    nextId := 2 }

/-- C3, counterexample.  A path with no dot-separated extension at all is
returned by `get_files_without_videohash`, because the SQL derives the ext
column from the last three characters of the path rather than from a
dot-separated extension. -/
theorem c3_dotless_path_returned :
    get_files_without_videohash dotlessStore = .ok [(1, "/data/foomp4", 5)] ∧
    '.' ∉ "/data/foomp4".data :=
  ⟨rfl, by decide⟩

theorem mem_sqlExtList_iff (x : List Char) : x ∈ sqlExtList ↔ x ∈ specExtList := by
  simp only [sqlExtList, specExtList, List.mem_cons, List.not_mem_nil, or_false]
  tauto

/-- C3, amended claim.  `list_videos_missing_histogram` returns exactly the
rows with no histogram whose lowercased final three path characters spell
one of mp4, avi, mkv, wmv, flv; for dotted paths with a three-letter
extension this coincides with the case-insensitive extension filter the
spec describes (so a .jpg row is excluded), but a dotless path ending in
those letters is returned as well. -/
theorem c3_ext_filter_characterization (s : DBState) (rows : List FileRow)
    (vh : List (Int × List Nat)) (h1 : s.file_digests = some rows)
    (h2 : s.video_hash = some vh) :
    ∃ out, get_files_without_videohash s = .ok out ∧
      ∀ i p sz, (i, p, sz) ∈ out ↔
        ∃ r ∈ rows, r.id = i ∧ r.path = p ∧ r.size = sz ∧
          sqliteExt3 p ∈ specExtList ∧ ∀ hr ∈ vh, hr.1 ≠ i := by
  obtain ⟨fd, vhist, vhash, nid⟩ := s
  have hfd : fd = some rows := h1
  have hvh : vhash = some vh := h2
  subst hfd
  subst hvh
  refine ⟨_, rfl, ?_⟩
  intro i p sz
  simp only [List.mem_map, List.mem_filter, Bool.and_eq_true, Bool.not_eq_true',
    List.any_eq_false, decide_eq_true_eq, Prod.mk.injEq]
  constructor
  · rintro ⟨r, ⟨hrmem, hno, hext⟩, rfl, rfl, rfl⟩
    exact ⟨r, hrmem, rfl, rfl, rfl, (mem_sqlExtList_iff _).mp hext, hno⟩
  · rintro ⟨r, hrmem, rfl, rfl, rfl, hext, hno⟩
    exact ⟨r, ⟨hrmem, hno, (mem_sqlExtList_iff _).mpr hext⟩, rfl, rfl, rfl⟩

/-- Store for scenario 6 of the spec: four rows a.mp4, b.jpg, c.wmv, d.avi
and no histograms. -/
def scenario6Store : DBState :=
  { file_digests := some [⟨1, "/tmp/a.mp4", [1], 1⟩, ⟨2, "/tmp/b.jpg", [2], 1⟩,
      ⟨3, "/tmp/c.wmv", [3], 1⟩, ⟨4, "/tmp/d.avi", [4], 1⟩],
    video_histograms := some [],
    video_hash := some [],
    nextId := 5 }

/-- C3 witness: the characterization instantiated at the scenario 6 store. -/
theorem c3_ext_filter_characterization_witness :
    scenario6Store.file_digests = some [⟨1, "/tmp/a.mp4", [1], 1⟩, ⟨2, "/tmp/b.jpg", [2], 1⟩,
      ⟨3, "/tmp/c.wmv", [3], 1⟩, ⟨4, "/tmp/d.avi", [4], 1⟩] ∧
    scenario6Store.video_hash = some [] ∧
    ∃ out, get_files_without_videohash scenario6Store = .ok out ∧
      ∀ i p sz, (i, p, sz) ∈ out ↔
        ∃ r ∈ [⟨1, "/tmp/a.mp4", [1], 1⟩, ⟨2, "/tmp/b.jpg", [2], 1⟩,
            ⟨3, "/tmp/c.wmv", [3], 1⟩, (⟨4, "/tmp/d.avi", [4], 1⟩ : FileRow)],
          r.id = i ∧ r.path = p ∧ r.size = sz ∧
            sqliteExt3 p ∈ specExtList ∧ ∀ hr ∈ ([] : List (Int × List Nat)), hr.1 ≠ i :=
  ⟨rfl, rfl, c3_ext_filter_characterization scenario6Store _ [] rfl rfl⟩

/-- One result of `reader.read` on an open file: a chunk of bytes (an empty
chunk signals EOF) or an I/O error. -/
inductive ReadStep where
  | chunk : List Nat → ReadStep
  | ioError
deriving DecidableEq, Repr

/-- Abstract source file as the digest pipeline sees it: whether open
succeeds, the successive results `reader.read` would deliver, and whether
`fs::metadata` succeeds together with the reported length. -/
structure SrcFile where
  path : String
  openOk : Bool
  reads : List ReadStep
  statOk : Bool
  size : Nat
deriving DecidableEq, Repr

/-- Outcome of `get_hash` (`filehashing.rs` lines 36 to 51): a digest, an
Err value, or a panic.  The cryptographic digest of the consumed bytes is
abstracted to the consumed byte stream itself, since no claim under
verification depends on the hash function. -/
inductive HashOutcome where
  | ok : List Nat → HashOutcome
  | ioErr
  | panicked
deriving DecidableEq, Repr

/-- Read loop of `get_hash`: read into a 1024-byte buffer, feed the hasher,
stop at EOF or at any short read.  The read result goes through
`.unwrap()`, so an I/O error from a read panics rather than becoming an
Err.  An exhausted step list behaves as EOF. -/
def get_hash_loop (acc : List Nat) : List ReadStep → HashOutcome
  | [] => .ok acc
  | .ioError :: _ => .panicked
  | .chunk d :: rest =>
    if d.length = 0 ∨ d.length < 1024 then .ok (acc ++ d) else get_hash_loop (acc ++ d) rest

/-- Translation of `get_hash`: the open uses the question-mark operator, so
an open failure is returned as an Err value; reads go through the loop
above. -/
def get_hash (f : SrcFile) : HashOutcome :=
  if f.openOk then get_hash_loop [] f.reads else .ioErr

/-- Result of one producer task: a record, an error value sent as Err over
the channel, or a panic, which rayon escalates so that the process aborts. -/
inductive ProdResult where
  | ok : FileRow → ProdResult
  | err
  | panicked
deriving DecidableEq, Repr

/-- Translation of `_create_filedigest` (`filehashing.rs` lines 53 to 62):
hash the file, then stat it; both fallible steps use the question-mark
operator. -/
def create_filedigest (f : SrcFile) : ProdResult :=
  match get_hash f with
  | .panicked => .panicked
  | .ioErr => .err
  | .ok d => if f.statOk then .ok ⟨-1, f.path, d, f.size⟩ else .err

/-- Outcome of the whole digest pipeline. -/
inductive PipeOutcome where
  | ok : DBState → PipeOutcome
  | panicked
  | fatal : StoreErr → PipeOutcome
deriving Repr

/-- Consumer loop of `process_filelist` (`filehashing.rs` lines 64 to 108):
Err results from producers are logged and skipped, Ok records are buffered
and committed in batches of `commit_batchsize`, a partial buffer is flushed
at the end, a commit failure is fatal, and a producer panic aborts the
pipeline. -/
def process_filelist_go (db : DBState) (buf : List FileRow) (batchsize : Nat) :
    List SrcFile → PipeOutcome
  | [] =>
    if buf.length > 0 then
      match insert_many_filedigests db buf with
      | (.ok db1, _) => .ok db1
      | (.error e, _) => .fatal e
    else .ok db
  | f :: fs =>
    match create_filedigest f with
    | .panicked => .panicked
    | .err => process_filelist_go db buf batchsize fs
    | .ok fd =>
      let buf1 := buf ++ [fd]
      if buf1.length < batchsize then process_filelist_go db buf1 batchsize fs
      else
        match insert_many_filedigests db buf1 with
        | (.ok db1, _) => process_filelist_go db1 [] batchsize fs
        | (.error e, _) => .fatal e

/-- Translation of `process_filelist`: drain the producer results in channel
order with an empty buffer. -/
def process_filelist (db : DBState) (filelist : List SrcFile) (batchsize : Nat) : PipeOutcome :=
  process_filelist_go db [] batchsize filelist

/-- File whose open succeeds but whose first read returns an I/O error. -/
def readFailFile : SrcFile := ⟨"/data/r", true, [.ioError], true, 7⟩

/-- File whose open itself fails. -/
def openFailFile : SrcFile := ⟨"/data/o", false, [], true, 7⟩

/-- File that hashes normally to the three bytes 1, 2, 3. -/
def goodFile : SrcFile := ⟨"/data/g", true, [.chunk [1, 2, 3]], true, 3⟩

/-- C4, divergence witness.  A read error after a successful open panics
(`reader.read(..).unwrap()` at `filehashing.rs` line 43) and aborts the
pipeline, so the remaining file is never committed — whereas an open
failure is surfaced as an Err value, logged and skipped exactly as the
claim describes, after which the remaining file is still processed. -/
theorem c4_read_error_panics_pipeline :
    process_filelist emptyStore [readFailFile, goodFile] 1024 = .panicked ∧
    process_filelist emptyStore [openFailFile, goodFile] 1024 =
      .ok { file_digests := some [⟨1, "/data/g", [1, 2, 3], 3⟩],
            video_histograms := some [],
            video_hash := some [],
            nextId := 2 } :=
  ⟨rfl, rfl⟩

/-- First four digest bytes: the prefix bucket key of the exact clusterer
(`similarities.rs` lines 23 to 57). -/
def prefix4 (d : List Nat) : List Nat := d.take 4

/-- Bag of ids sharing one digest, mirroring struct `FileDigestBag`. -/
structure FileDigestBag where
  id_list : List Int
  digest : List Nat
deriving DecidableEq, Repr

/-- Ingest one record into the bags of its bucket: the scan appends the id
to every bag holding the record's digest, and pushes a fresh bag when none
does — the inner loop of `find_similarities`. -/
def ingestIntoBags (bags : List FileDigestBag) (f : FileRow) : List FileDigestBag :=
  if bags.any fun b => b.digest = f.digest then
    bags.map fun b =>
      if b.digest = f.digest then { b with id_list := b.id_list ++ [f.id] } else b
  else
    (bags.map fun b =>
      if b.digest = f.digest then { b with id_list := b.id_list ++ [f.id] } else b) ++
      [⟨[f.id], f.digest⟩]

/-- The prefix-keyed bucket map as an association list with unique keys (the
iteration order of the Rust HashMap does not affect the emitted set of
bags); `map.entry(k).or_insert(vec![])` finds or creates the bucket. -/
def updateMap : List (List Nat × List FileDigestBag) → FileRow →
    List (List Nat × List FileDigestBag)
  | [], f => [(prefix4 f.digest, ingestIntoBags [] f)]
  | e :: rest, f =>
    if e.1 = prefix4 f.digest then (e.1, ingestIntoBags e.2 f) :: rest
    else e :: updateMap rest f

/-- All bags of the bucket map. -/
def allBags (m : List (List Nat × List FileDigestBag)) : List FileDigestBag :=
  (m.map Prod.snd).flatten

/-- Translation of `find_similarities`: ingest every record into its prefix
bucket, then emit the ascending-sorted id list of every bag holding at
least two ids. -/
def find_similarities (files : List FileRow) : List (List Int) :=
  ((allBags (files.foldl updateMap [])).filter fun b => 1 < b.id_list.length).map fun b =>
    List.insertionSort (· ≤ ·) b.id_list

/-- Ids of the files carrying a given digest, in input order. -/
def idsWithDigest (files : List FileRow) (d : List Nat) : List Int :=
  (files.filter fun f => f.digest = d).map fun f => f.id

/-- Invariant tying a flat list of bags to the records already processed:
every bag lists exactly the ids carrying its digest, every processed digest
has a bag, and no two bags share a digest. -/
def FlatInv (ps : List FileRow) (bags : List FileDigestBag) : Prop :=
  (∀ b ∈ bags, b.id_list = idsWithDigest ps b.digest) ∧
  (∀ f ∈ ps, ∃ b ∈ bags, b.digest = f.digest) ∧
  (bags.map fun b => b.digest).Nodup

/-- Invariant of the bucket map: unique keys, every bag lives in the bucket
of its digest's prefix, and the flat invariant for all bags together. -/
def MapInv (ps : List FileRow) (m : List (List Nat × List FileDigestBag)) : Prop :=
  (m.map Prod.fst).Nodup ∧
  (∀ e ∈ m, ∀ b ∈ e.2, prefix4 b.digest = e.1) ∧
  FlatInv ps (allBags m)

theorem idsWithDigest_append (ps : List FileRow) (f : FileRow) (d : List Nat) :
    idsWithDigest (ps ++ [f]) d =
      idsWithDigest ps d ++ if f.digest = d then [f.id] else [] := by
  simp only [idsWithDigest, List.filter_append, List.map_append]
  congr 1
  by_cases h : f.digest = d <;> simp [h]

theorem flatInv_nil : FlatInv [] [] :=
  ⟨by simp, by simp, by simp⟩

theorem ingest_digest_eq (f : FileRow) (b : FileDigestBag) :
    ((if b.digest = f.digest then { b with id_list := b.id_list ++ [f.id] } else b) :
      FileDigestBag).digest = b.digest := by
  by_cases h : b.digest = f.digest <;> simp [h]


theorem flatInv_step (ps : List FileRow) (bags : List FileDigestBag) (f : FileRow)
    (h : FlatInv ps bags) : FlatInv (ps ++ [f]) (ingestIntoBags bags f) := by
  obtain ⟨hchar, hcov, hnd⟩ := h
  have hmapdig : ((bags.map fun b =>
      if b.digest = f.digest then { b with id_list := b.id_list ++ [f.id] } else b).map
        fun b => b.digest) = bags.map fun b => b.digest := by
    rw [List.map_map]
    exact List.map_congr_left fun b _ => ingest_digest_eq f b
  by_cases hany : (bags.any fun b => decide (b.digest = f.digest)) = true
  · have hres : ingestIntoBags bags f = bags.map fun b =>
        if b.digest = f.digest then { b with id_list := b.id_list ++ [f.id] } else b := by
      rw [ingestIntoBags, if_pos hany]
    refine ⟨?_, ?_, ?_⟩
    · intro b hb
      rw [hres] at hb
      obtain ⟨b0, hb0, rfl⟩ := List.mem_map.mp hb
      by_cases hd : b0.digest = f.digest
      · simp only [hd, if_true, idsWithDigest_append]
        rw [← hd, hchar b0 hb0]
      · simp only [hd, if_false, idsWithDigest_append]
        rw [hchar b0 hb0]
        have hne : ¬ f.digest = b0.digest := fun he => hd he.symm
        simp [hne]
    · intro g hg
      rcases List.mem_append.mp hg with hg1 | hg2
      · obtain ⟨b, hbm, hbd⟩ := hcov g hg1
        refine ⟨_, ?_, (ingest_digest_eq f b).trans hbd⟩
        rw [hres]
        exact List.mem_map.mpr ⟨b, hbm, rfl⟩
      · obtain ⟨b, hbm, hbd0⟩ := List.any_eq_true.mp hany
        have hbd : b.digest = f.digest := of_decide_eq_true hbd0
        have hgf : g = f := List.mem_singleton.mp hg2
        subst hgf
        refine ⟨_, ?_, (ingest_digest_eq g b).trans hbd⟩
        rw [hres]
        exact List.mem_map.mpr ⟨b, hbm, rfl⟩
    · rw [hres, hmapdig]
      exact hnd
  · simp only [Bool.not_eq_true] at hany
    have hnone : ∀ b ∈ bags, ¬ b.digest = f.digest := by
      intro b hb hd
      have h2 := List.any_eq_false.mp hany b hb
      simp [hd] at h2
    have hid : (bags.map fun b =>
        if b.digest = f.digest then { b with id_list := b.id_list ++ [f.id] } else b) = bags := by
      have h1 : ∀ b ∈ bags, (if b.digest = f.digest
          then ({ b with id_list := b.id_list ++ [f.id] } : FileDigestBag) else b) = b := by
        intro b hb
        simp [hnone b hb]
      exact (List.map_congr_left h1).trans (List.map_id bags)
    have hres : ingestIntoBags bags f = bags ++ [⟨[f.id], f.digest⟩] := by
      rw [ingestIntoBags, if_neg (by simp [hany]), hid]
    have hfresh : idsWithDigest ps f.digest = [] := by
      have h2 : (ps.filter fun g => decide (g.digest = f.digest)) = [] := by
        apply List.filter_eq_nil_iff.mpr
        intro g hg
        simp only [decide_eq_true_eq]
        intro hgd
        obtain ⟨b, hbm, hbd⟩ := hcov g hg
        exact hnone b hbm (hbd.trans hgd)
      rw [idsWithDigest, h2]
      rfl
    rw [hres]
    refine ⟨?_, ?_, ?_⟩
    · intro b hb
      rcases List.mem_append.mp hb with hb1 | hb2
      · rw [idsWithDigest_append, hchar b hb1]
        have hne : ¬ f.digest = b.digest := fun he => hnone b hb1 he.symm
        simp [hne]
      · have hbeq : b = ⟨[f.id], f.digest⟩ := List.mem_singleton.mp hb2
        subst hbeq
        rw [idsWithDigest_append]
        simp [hfresh]
    · intro g hg
      rcases List.mem_append.mp hg with hg1 | hg2
      · obtain ⟨b, hbm, hbd⟩ := hcov g hg1
        exact ⟨b, List.mem_append_left _ hbm, hbd⟩
      · have hgf : g = f := List.mem_singleton.mp hg2
        subst hgf
        exact ⟨⟨[g.id], g.digest⟩, List.mem_append_right _ (List.mem_singleton.mpr rfl), rfl⟩
    · rw [List.map_append]
      simp only [List.map_cons, List.map_nil]
      rw [List.nodup_append]
      refine ⟨hnd, List.nodup_singleton _, ?_⟩
      intro d hd1 hd2
      obtain ⟨b, hbm, hbd⟩ := List.mem_map.mp hd1
      have hdf : d = f.digest := by simpa using hd2
      exact hnone b hbm (hbd.trans hdf)

theorem flatInv_perm (ps : List FileRow) (bags1 bags2 : List FileDigestBag)
    (hp : bags1.Perm bags2) (h : FlatInv ps bags1) : FlatInv ps bags2 := by
  obtain ⟨hchar, hcov, hnd⟩ := h
  refine ⟨?_, ?_, ?_⟩
  · intro b hb
    exact hchar b (hp.mem_iff.mpr hb)
  · intro g hg
    obtain ⟨b, hbm, hbd⟩ := hcov g hg
    exact ⟨b, hp.mem_iff.mp hbm, hbd⟩
  · exact ((hp.map fun b => b.digest).nodup_iff).mp hnd

theorem ingest_append_left (bags1 bags2 : List FileDigestBag) (f : FileRow)
    (h : ∀ b ∈ bags1, ¬ b.digest = f.digest) :
    ingestIntoBags (bags1 ++ bags2) f = bags1 ++ ingestIntoBags bags2 f := by
  have hany1 : (bags1.any fun b => decide (b.digest = f.digest)) = false := by
    simp only [List.any_eq_false, decide_eq_true_eq]
    exact h
  have hmap1 : (bags1.map fun b =>
      if b.digest = f.digest then { b with id_list := b.id_list ++ [f.id] } else b) = bags1 := by
    have h1 : ∀ b ∈ bags1, (if b.digest = f.digest
        then ({ b with id_list := b.id_list ++ [f.id] } : FileDigestBag) else b) = b := by
      intro b hb
      simp [h b hb]
    exact (List.map_congr_left h1).trans (List.map_id bags1)
  by_cases h2 : (bags2.any fun b => decide (b.digest = f.digest)) = true
  · simp only [ingestIntoBags, List.any_append, hany1, Bool.false_or, h2, if_true,
      List.map_append, hmap1]
  · simp only [Bool.not_eq_true] at h2
    simp only [ingestIntoBags, List.any_append, hany1, Bool.false_or, h2, Bool.false_eq_true,
      if_false, List.map_append, hmap1, List.append_assoc]

theorem ingest_append_right_perm (bags1 bags2 : List FileDigestBag) (f : FileRow)
    (h : ∀ b ∈ bags2, ¬ b.digest = f.digest) :
    (ingestIntoBags (bags1 ++ bags2) f).Perm (ingestIntoBags bags1 f ++ bags2) := by
  have hany2 : (bags2.any fun b => decide (b.digest = f.digest)) = false := by
    simp only [List.any_eq_false, decide_eq_true_eq]
    exact h
  have hmap2 : (bags2.map fun b =>
      if b.digest = f.digest then { b with id_list := b.id_list ++ [f.id] } else b) = bags2 := by
    have h1 : ∀ b ∈ bags2, (if b.digest = f.digest
        then ({ b with id_list := b.id_list ++ [f.id] } : FileDigestBag) else b) = b := by
      intro b hb
      simp [h b hb]
    exact (List.map_congr_left h1).trans (List.map_id bags2)
  by_cases h1 : (bags1.any fun b => decide (b.digest = f.digest)) = true
  · have heq : ingestIntoBags (bags1 ++ bags2) f = ingestIntoBags bags1 f ++ bags2 := by
      simp only [ingestIntoBags, List.any_append, h1, Bool.true_or, if_true,
        List.map_append, hmap2]
    rw [heq]
  · simp only [Bool.not_eq_true] at h1
    have heqL : ingestIntoBags (bags1 ++ bags2) f =
        (bags1.map fun b =>
          if b.digest = f.digest then { b with id_list := b.id_list ++ [f.id] } else b) ++
          (bags2 ++ [⟨[f.id], f.digest⟩]) := by
      simp only [ingestIntoBags, List.any_append, h1, hany2, Bool.or_self, Bool.false_eq_true,
        if_false, List.map_append, hmap2, List.append_assoc]
    have heqR : ingestIntoBags bags1 f ++ bags2 =
        (bags1.map fun b =>
          if b.digest = f.digest then { b with id_list := b.id_list ++ [f.id] } else b) ++
          ([⟨[f.id], f.digest⟩] ++ bags2) := by
      simp only [ingestIntoBags, h1, Bool.false_eq_true, if_false, List.append_assoc]
    rw [heqL, heqR]
    exact List.Perm.append_left _ List.perm_append_comm

theorem updateMap_keys (m : List (List Nat × List FileDigestBag)) (f : FileRow) :
    (updateMap m f).map Prod.fst =
      if prefix4 f.digest ∈ m.map Prod.fst then m.map Prod.fst
      else m.map Prod.fst ++ [prefix4 f.digest] := by
  induction m with
  | nil => simp [updateMap]
  | cons e rest ih =>
    by_cases h : e.1 = prefix4 f.digest
    · simp [updateMap, h]
    · have h2 : ¬ prefix4 f.digest = e.1 := fun he => h he.symm
      by_cases h3 : prefix4 f.digest ∈ rest.map Prod.fst
      · simp [updateMap, h, ih, h2, h3]
      · simp [updateMap, h, ih, h2, h3]

theorem mem_allBags (m : List (List Nat × List FileDigestBag)) (b : FileDigestBag) :
    b ∈ allBags m ↔ ∃ e ∈ m, b ∈ e.2 := by
  simp only [allBags, List.mem_flatten, List.mem_map]
  constructor
  · rintro ⟨l, ⟨e, he, rfl⟩, hbl⟩
    exact ⟨e, he, hbl⟩
  · rintro ⟨e, he, hbe⟩
    exact ⟨e.2, ⟨e, he, rfl⟩, hbe⟩

theorem ingest_mem_digest (bags : List FileDigestBag) (f : FileRow) (b : FileDigestBag)
    (hb : b ∈ ingestIntoBags bags f) :
    b.digest = f.digest ∨ ∃ b0 ∈ bags, b.digest = b0.digest := by
  rw [ingestIntoBags] at hb
  by_cases hany : (bags.any fun b => decide (b.digest = f.digest)) = true
  · rw [if_pos hany] at hb
    obtain ⟨b0, hb0, rfl⟩ := List.mem_map.mp hb
    right
    exact ⟨b0, hb0, ingest_digest_eq f b0⟩
  · rw [if_neg hany] at hb
    rcases List.mem_append.mp hb with hb1 | hb2
    · obtain ⟨b0, hb0, rfl⟩ := List.mem_map.mp hb1
      right
      exact ⟨b0, hb0, ingest_digest_eq f b0⟩
    · left
      rw [List.mem_singleton.mp hb2]

theorem updateMap_bucket (m : List (List Nat × List FileDigestBag)) (f : FileRow)
    (h : ∀ e ∈ m, ∀ b ∈ e.2, prefix4 b.digest = e.1) :
    ∀ e ∈ updateMap m f, ∀ b ∈ e.2, prefix4 b.digest = e.1 := by
  induction m with
  | nil =>
    intro e he b hb
    simp only [updateMap, List.mem_singleton] at he
    subst he
    rcases ingest_mem_digest [] f b hb with hd | ⟨b0, hb0, _⟩
    · rw [hd]
    · cases hb0
  | cons e0 rest ih =>
    intro e he b hb
    by_cases h0 : e0.1 = prefix4 f.digest
    · rw [updateMap, if_pos h0] at he
      rcases List.mem_cons.mp he with rfl | he2
      · rcases ingest_mem_digest e0.2 f b hb with hd | ⟨b0, hb0, hd⟩
        · rw [hd]
          exact h0.symm
        · rw [hd]
          exact h e0 (List.mem_cons_self e0 rest) b0 hb0
      · exact h e (List.mem_cons_of_mem e0 he2) b hb
    · rw [updateMap, if_neg h0] at he
      rcases List.mem_cons.mp he with rfl | he2
      · exact h e (List.mem_cons_self e rest) b hb
      · exact ih (fun e2 he3 => h e2 (List.mem_cons_of_mem e0 he3)) e he2 b hb

theorem updateMap_allBags_perm (m : List (List Nat × List FileDigestBag)) (f : FileRow)
    (hkeys : (m.map Prod.fst).Nodup)
    (hbuck : ∀ e ∈ m, ∀ b ∈ e.2, prefix4 b.digest = e.1) :
    (allBags (updateMap m f)).Perm (ingestIntoBags (allBags m) f) := by
  induction m with
  | nil =>
    have heq : allBags (updateMap [] f) = ingestIntoBags (allBags []) f := by
      simp [allBags, updateMap]
    rw [heq]
  | cons e rest ih =>
    obtain ⟨hknotin, hkrest⟩ := List.nodup_cons.mp
      (by simpa only [List.map_cons] using hkeys)
    have hbtail : ∀ e2 ∈ rest, ∀ b ∈ e2.2, prefix4 b.digest = e2.1 :=
      fun e2 he2 => hbuck e2 (List.mem_cons_of_mem e he2)
    have hR : allBags (e :: rest) = e.2 ++ allBags rest := by
      simp [allBags]
    by_cases h0 : e.1 = prefix4 f.digest
    · have hrest : ∀ b ∈ allBags rest, ¬ b.digest = f.digest := by
        intro b hb hd
        obtain ⟨e2, he2, hbe2⟩ := (mem_allBags rest b).mp hb
        have hp : prefix4 b.digest = e2.1 := hbtail e2 he2 b hbe2
        rw [hd, ← h0] at hp
        exact hknotin (hp ▸ List.mem_map.mpr ⟨e2, he2, rfl⟩)
      have hstep : updateMap (e :: rest) f = (e.1, ingestIntoBags e.2 f) :: rest := by
        rw [updateMap, if_pos h0]
      have hL : allBags ((e.1, ingestIntoBags e.2 f) :: rest) =
          ingestIntoBags e.2 f ++ allBags rest := by
        simp [allBags]
      rw [hstep, hL, hR]
      exact (ingest_append_right_perm e.2 (allBags rest) f hrest).symm
    · have he2d : ∀ b ∈ e.2, ¬ b.digest = f.digest := by
        intro b hb hd
        have hp : prefix4 b.digest = e.1 := hbuck e (List.mem_cons_self e rest) b hb
        rw [hd] at hp
        exact h0 hp.symm
      have hstep : updateMap (e :: rest) f = e :: updateMap rest f := by
        rw [updateMap, if_neg h0]
      have hL : allBags (e :: updateMap rest f) = e.2 ++ allBags (updateMap rest f) := by
        simp [allBags]
      rw [hstep, hL, hR, ingest_append_left e.2 (allBags rest) f he2d]
      exact List.Perm.append_left e.2 (ih hkrest hbtail)

theorem mapInv_step (ps : List FileRow) (m : List (List Nat × List FileDigestBag))
    (f : FileRow) (h : MapInv ps m) : MapInv (ps ++ [f]) (updateMap m f) := by
  obtain ⟨hkeys, hbuck, hflat⟩ := h
  refine ⟨?_, updateMap_bucket m f hbuck, ?_⟩
  · rw [updateMap_keys]
    by_cases h2 : prefix4 f.digest ∈ m.map Prod.fst
    · rw [if_pos h2]
      exact hkeys
    · rw [if_neg h2]
      rw [List.nodup_append]
      refine ⟨hkeys, List.nodup_singleton _, ?_⟩
      intro k hk1 hk2
      rw [List.mem_singleton.mp hk2] at hk1
      exact h2 hk1
  · exact flatInv_perm _ _ _ (updateMap_allBags_perm m f hkeys hbuck).symm
      (flatInv_step ps (allBags m) f hflat)

theorem mapInv_fold (fs : List FileRow) :
    ∀ ps m, MapInv ps m → MapInv (ps ++ fs) (fs.foldl updateMap m) := by
  induction fs with
  | nil =>
    intro ps m h
    simpa using h
  | cons f fs ih =>
    intro ps m h
    have h3 := ih (ps ++ [f]) (updateMap m f) (mapInv_step ps m f h)
    simpa [List.append_assoc] using h3

theorem mapInv_files (files : List FileRow) :
    MapInv files (files.foldl updateMap []) := by
  have h0 : MapInv [] [] := by
    refine ⟨by simp, by simp, ?_, ?_, ?_⟩ <;> simp [allBags, idsWithDigest]
  simpa using mapInv_fold files [] [] h0

theorem id_inj_of_nodup (files : List FileRow)
    (hid : (files.map fun f => f.id).Nodup) :
    ∀ f ∈ files, ∀ g ∈ files, f.id = g.id → f = g := by
  induction files with
  | nil =>
    intro f hf
    cases hf
  | cons a l ih =>
    simp only [List.map_cons, List.nodup_cons] at hid
    obtain ⟨ha, hl⟩ := hid
    intro f hf g hg heq
    rcases List.mem_cons.mp hf with rfl | hf2
    · rcases List.mem_cons.mp hg with rfl | hg2
      · rfl
      · exact absurd (List.mem_map.mpr ⟨g, hg2, heq.symm⟩) ha
    · rcases List.mem_cons.mp hg with rfl | hg2
      · exact absurd (List.mem_map.mpr ⟨f, hf2, heq⟩) ha
      · exact ih hl f hf2 g hg2 heq

theorem one_lt_length_of_mem_ne (a b : Int) (l : List Int)
    (ha : a ∈ l) (hb : b ∈ l) (hne : a ≠ b) : 1 < l.length := by
  rcases l with _ | ⟨x, _ | ⟨y, t⟩⟩
  · cases ha
  · exact absurd ((List.mem_singleton.mp ha).trans (List.mem_singleton.mp hb).symm) hne
  · simp only [List.length_cons]
    omega

theorem idsWithDigest_mem (files : List FileRow) (d : List Nat) (x : Int) :
    x ∈ idsWithDigest files d ↔ ∃ f ∈ files, f.id = x ∧ f.digest = d := by
  simp only [idsWithDigest, List.mem_map, List.mem_filter, decide_eq_true_eq]
  constructor
  · rintro ⟨f, ⟨hf, hd⟩, rfl⟩
    exact ⟨f, hf, rfl, hd⟩
  · rintro ⟨f, hf, rfl, hd⟩
    exact ⟨f, ⟨hf, hd⟩, rfl⟩

/-- C8.  Under the store invariant that ids are unique (and digests at least
four bytes long), the exact clusterer emits only bags of two or more ids,
and two records land in a common emitted bag exactly when their digests
are byte-for-byte equal. -/
theorem c8_exact_clusterer_groups_by_digest (files : List FileRow)
    (hlen : ∀ f ∈ files, 4 ≤ f.digest.length)
    (hid : (files.map fun f => f.id).Nodup) :
    (∀ bag ∈ find_similarities files, 2 ≤ bag.length) ∧
    (∀ f ∈ files, ∀ g ∈ files, f.id ≠ g.id →
      ((∃ bag ∈ find_similarities files, f.id ∈ bag ∧ g.id ∈ bag) ↔ f.digest = g.digest)) := by
  obtain ⟨hkeys, hbuck, hchar, hcov, hnd⟩ := mapInv_files files
  constructor
  · intro bag hbag
    simp only [find_similarities] at hbag
    obtain ⟨b, hb, rfl⟩ := List.mem_map.mp hbag
    obtain ⟨hbmem, hblen⟩ := List.mem_filter.mp hb
    have h1 : 1 < b.id_list.length := of_decide_eq_true hblen
    rw [(List.perm_insertionSort (· ≤ ·) b.id_list).length_eq]
    omega
  · intro f hf g hg hne
    constructor
    · rintro ⟨bag, hbag, hfmem, hgmem⟩
      simp only [find_similarities] at hbag
      obtain ⟨b, hb, rfl⟩ := List.mem_map.mp hbag
      obtain ⟨hbmem, _⟩ := List.mem_filter.mp hb
      have hperm := List.perm_insertionSort (· ≤ ·) b.id_list
      have hfb : f.id ∈ b.id_list := hperm.mem_iff.mp hfmem
      have hgb : g.id ∈ b.id_list := hperm.mem_iff.mp hgmem
      rw [hchar b hbmem] at hfb hgb
      obtain ⟨f2, hf2files, hf2id, hf2dig⟩ := (idsWithDigest_mem _ _ _).mp hfb
      obtain ⟨g2, hg2files, hg2id, hg2dig⟩ := (idsWithDigest_mem _ _ _).mp hgb
      have hff2 : f2 = f := id_inj_of_nodup files hid f2 hf2files f hf hf2id
      have hgg2 : g2 = g := id_inj_of_nodup files hid g2 hg2files g hg hg2id
      rw [← hff2, ← hgg2]
      exact hf2dig.trans hg2dig.symm
    · intro hdig
      obtain ⟨b, hbmem, hbdig⟩ := hcov f hf
      have hfb : f.id ∈ b.id_list := by
        rw [hchar b hbmem]
        exact (idsWithDigest_mem _ _ _).mpr ⟨f, hf, rfl, hbdig.symm⟩
      have hgb : g.id ∈ b.id_list := by
        rw [hchar b hbmem]
        exact (idsWithDigest_mem _ _ _).mpr ⟨g, hg, rfl, hdig.symm.trans hbdig.symm⟩
      have hlen2 : 1 < b.id_list.length := one_lt_length_of_mem_ne _ _ _ hfb hgb hne
      refine ⟨List.insertionSort (· ≤ ·) b.id_list, ?_, ?_, ?_⟩
      · simp only [find_similarities]
        exact List.mem_map.mpr ⟨b, List.mem_filter.mpr ⟨hbmem, decide_eq_true hlen2⟩, rfl⟩
      · exact (List.perm_insertionSort _ _).mem_iff.mpr hfb
      · exact (List.perm_insertionSort _ _).mem_iff.mpr hgb

/-- Five records realising spec scenario 2: two pairs of equal digests and
one unique digest, all four bytes long. -/
def demoFiles : List FileRow :=
  [⟨1, "/tmp/a", [0, 1, 2, 3], 2⟩, ⟨2, "/tmp/b", [0, 1, 2, 3], 2⟩,
   ⟨3, "/tmp/c", [1, 1, 2, 4], 1⟩, ⟨4, "/tmp/d", [1, 1, 2, 4], 1⟩,
   ⟨5, "/tmp/e", [1, 1, 2, 6], 1⟩]

/-- C8 witness: the grouping property instantiated at the scenario 2 input. -/
theorem c8_exact_clusterer_groups_by_digest_witness :
    (∀ f ∈ demoFiles, 4 ≤ f.digest.length) ∧
    ((demoFiles.map fun f => f.id).Nodup) ∧
    ((∀ bag ∈ find_similarities demoFiles, 2 ≤ bag.length) ∧
      (∀ f ∈ demoFiles, ∀ g ∈ demoFiles, f.id ≠ g.id →
        ((∃ bag ∈ find_similarities demoFiles, f.id ∈ bag ∧ g.id ∈ bag) ↔
          f.digest = g.digest))) :=
  ⟨by decide, by decide, c8_exact_clusterer_groups_by_digest demoFiles (by decide) (by decide)⟩

/-- C10, counterexample.  A record whose digest is shared by no other record
contributes its id to no emitted bag at all (the size filter drops its
singleton bag), so an input record does not always contribute to exactly
one emitted bag. -/
theorem c10_singleton_in_no_bag :
    find_similarities [⟨1, "/tmp/a", [9, 9, 9, 9], 1⟩] = [] ∧
    ¬ ∃ bag ∈ find_similarities [⟨1, "/tmp/a", [9, 9, 9, 9], 1⟩], (1 : Int) ∈ bag :=
  ⟨rfl, by decide⟩

theorem countP_le_one_of_disjoint (bags : List (List Int)) (x : Int)
    (h : bags.Pairwise fun b c => ∀ y ∈ b, y ∉ c) :
    (bags.countP fun bag => decide (x ∈ bag)) ≤ 1 := by
  induction bags with
  | nil => simp
  | cons b rest ih =>
    obtain ⟨hb, hrest⟩ := List.pairwise_cons.mp h
    rw [List.countP_cons]
    by_cases hx : x ∈ b
    · have hzero : (rest.countP fun bag => decide (x ∈ bag)) = 0 := by
        apply List.countP_eq_zero.mpr
        intro c hc
        simp only [decide_eq_true_eq]
        exact hb c hc x hx
      simp [hzero, hx]
    · simpa [hx] using ih hrest

/-- C10, amended claim.  With unique ids, the emitted bags are pairwise
disjoint and duplicate-free, so every input record contributes its id to at
most one emitted bag (records with a unique digest contribute to none,
since their singleton bag is dropped by the size filter). -/
theorem c10_bags_partition (files : List FileRow)
    (hlen : ∀ f ∈ files, 4 ≤ f.digest.length)
    (hid : (files.map fun f => f.id).Nodup) :
    (∀ bag ∈ find_similarities files, bag.Nodup) ∧
    ((find_similarities files).Pairwise fun b c => ∀ x ∈ b, x ∉ c) ∧
    (∀ f ∈ files, ((find_similarities files).countP fun bag => decide (f.id ∈ bag)) ≤ 1) := by
  obtain ⟨hkeys, hbuck, hchar, hcov, hnd⟩ := mapInv_files files
  have hidsnodup : ∀ d, (idsWithDigest files d).Nodup := by
    intro d
    have hsub : ((files.filter fun f => decide (f.digest = d)).map fun f => f.id).Sublist
        (files.map fun f => f.id) := (List.filter_sublist files).map _
    exact hid.sublist hsub
  have hpairdig : (allBags (files.foldl updateMap [])).Pairwise
      fun b c => b.digest ≠ c.digest := List.pairwise_map.mp hnd
  have hpairdisj : (allBags (files.foldl updateMap [])).Pairwise
      fun b c => ∀ x ∈ b.id_list, x ∉ c.id_list := by
    apply hpairdig.imp_of_mem
    intro b c hbm hcm hbc x hxb hxc
    rw [hchar b hbm] at hxb
    rw [hchar c hcm] at hxc
    obtain ⟨fb, hfb, hfbid, hfbd⟩ := (idsWithDigest_mem _ _ _).mp hxb
    obtain ⟨fc, hfc, hfcid, hfcd⟩ := (idsWithDigest_mem _ _ _).mp hxc
    have hbceq : fb = fc := id_inj_of_nodup files hid fb hfb fc hfc (hfbid.trans hfcid.symm)
    exact hbc ((hfbd.symm.trans (congrArg FileRow.digest hbceq)).trans hfcd)
  have hpairres : (find_similarities files).Pairwise fun b c => ∀ x ∈ b, x ∉ c := by
    simp only [find_similarities]
    rw [List.pairwise_map]
    refine (hpairdisj.sublist (List.filter_sublist _)).imp ?_
    intro b c h x hx hxc
    exact h x ((List.perm_insertionSort (· ≤ ·) b.id_list).mem_iff.mp hx)
      ((List.perm_insertionSort (· ≤ ·) c.id_list).mem_iff.mp hxc)
  refine ⟨?_, hpairres, ?_⟩
  · intro bag hbag
    simp only [find_similarities] at hbag
    obtain ⟨b, hb, rfl⟩ := List.mem_map.mp hbag
    obtain ⟨hbmem, _⟩ := List.mem_filter.mp hb
    have h1 : b.id_list.Nodup := by
      rw [hchar b hbmem]
      exact hidsnodup b.digest
    exact ((List.perm_insertionSort (· ≤ ·) b.id_list).nodup_iff).mpr h1
  · intro f hf
    exact countP_le_one_of_disjoint _ _ hpairres

/-- C10 witness: the partition property instantiated at the scenario 2
input. -/
theorem c10_bags_partition_witness :
    (∀ f ∈ demoFiles, 4 ≤ f.digest.length) ∧
    ((demoFiles.map fun f => f.id).Nodup) ∧
    ((∀ bag ∈ find_similarities demoFiles, bag.Nodup) ∧
      ((find_similarities demoFiles).Pairwise fun b c => ∀ x ∈ b, x ∉ c) ∧
      (∀ f ∈ demoFiles, ((find_similarities demoFiles).countP fun bag =>
        decide (f.id ∈ bag)) ≤ 1)) :=
  ⟨by decide, by decide, c10_bags_partition demoFiles (by decide) (by decide)⟩

/-- Row of the VideoHashView snapshot, mirroring struct `VideoHash` in
`videohash.rs`: id, path, 64-byte histogram blob, size. -/
structure VideoHash where
  id : Int
  path : String
  histogram : List Nat
  size : Nat
deriving DecidableEq, Repr

instance : Inhabited VideoHash := ⟨⟨0, "", [], 0⟩⟩

/-- Translation of `l1_distance` (`videohash.rs` lines 256 to 262): the loop
runs over the indices of the first histogram and accumulates the absolute
byte differences.  The source computes in i16 and casts to u16 at the end;
the bound theorem below shows the value always lies in 0..16320 for
64-byte histograms, so the Int model is exact and no overflow occurs. -/
def l1_distance (a b : List Nat) : Int :=
  (List.range a.length).foldl
    (fun dist i => dist + |((a.getD i 0 : Int) - (b.getD i 0 : Int))|) 0

/-- L1 (Manhattan) distance as the spec words it: the sum of the elementwise
absolute differences of the two byte vectors. -/
def l1Manhattan (a b : List Nat) : Int :=
  (List.zipWith (fun (x y : Nat) => |((x : Int) - (y : Int))|) a b).sum

theorem foldl_add_eq_sum (g : Nat → Int) (l : List Nat) :
    ∀ c : Int, l.foldl (fun d i => d + g i) c = c + (l.map g).sum := by
  induction l with
  | nil => intro c; simp
  | cons x t ih =>
    intro c
    simp only [List.foldl_cons, List.map_cons, List.sum_cons, ih, add_assoc]

theorem range_map_abs_eq_zipWith (a : List Nat) :
    ∀ b : List Nat, a.length = b.length →
      ((List.range a.length).map fun i => |((a.getD i 0 : Int) - (b.getD i 0 : Int))|) =
        List.zipWith (fun (x y : Nat) => |((x : Int) - (y : Int))|) a b := by
  induction a with
  | nil =>
    intro b h
    simp
  | cons x t ih =>
    intro b h
    match b with
    | [] => simp at h
    | y :: u =>
      simp only [List.length_cons] at h
      have h2 : t.length = u.length := Nat.succ_injective h
      rw [List.length_cons, List.range_succ_eq_map t.length]
      simp only [List.map_cons, List.map_map, List.zipWith_cons_cons]
      congr 1
      rw [← ih u h2]
      apply List.map_congr_left
      intro i _
      simp [Function.comp, List.getD_cons_succ]

/-- Refinement: the source loop computes exactly the spec's Manhattan sum
whenever the two histograms have equal length. -/
theorem l1_distance_eq_manhattan (a b : List Nat) (h : a.length = b.length) :
    l1_distance a b = l1Manhattan a b := by
  rw [l1_distance, foldl_add_eq_sum, range_map_abs_eq_zipWith a b h, l1Manhattan, zero_add]

theorem l1Manhattan_comm (a : List Nat) :
    ∀ b : List Nat, l1Manhattan a b = l1Manhattan b a := by
  induction a with
  | nil =>
    intro b
    cases b <;> simp [l1Manhattan]
  | cons x t ih =>
    intro b
    cases b with
    | nil => simp [l1Manhattan]
    | cons y u =>
      simp only [l1Manhattan, List.zipWith_cons_cons, List.sum_cons] at *
      rw [abs_sub_comm, ih u]

theorem l1Manhattan_bound (a : List Nat) :
    ∀ b : List Nat, (∀ x ∈ a, x < 256) → (∀ x ∈ b, x < 256) →
      0 ≤ l1Manhattan a b ∧ l1Manhattan a b ≤ ((min a.length b.length : Nat) : Int) * 255 := by
  induction a with
  | nil =>
    intro b _ _
    simp [l1Manhattan]
  | cons x t ih =>
    intro b ha hb
    cases b with
    | nil => simp [l1Manhattan]
    | cons y u =>
      have hx : x < 256 := ha x (List.mem_cons_self x t)
      have hy : y < 256 := hb y (List.mem_cons_self y u)
      have hta : ∀ z ∈ t, z < 256 := fun z hz => ha z (List.mem_cons_of_mem x hz)
      have htu : ∀ z ∈ u, z < 256 := fun z hz => hb z (List.mem_cons_of_mem y hz)
      obtain ⟨ih0, ih1⟩ := ih u hta htu
      have habs : |((x : Int) - (y : Int))| ≤ 255 := by
        rw [abs_le]
        constructor <;> omega
      have habs0 : 0 ≤ |((x : Int) - (y : Int))| := abs_nonneg _
      simp only [l1Manhattan, List.zipWith_cons_cons, List.sum_cons] at *
      constructor
      · omega
      · have hmin : ((min (t.length + 1) (u.length + 1) : Nat) : Int) =
            ((min t.length u.length : Nat) : Int) + 1 := by
          rw [Nat.succ_min_succ]
          push_cast
          ring
        simp only [List.length_cons, hmin]
        have expand : (((min t.length u.length : Nat) : Int) + 1) * 255 =
            ((min t.length u.length : Nat) : Int) * 255 + 255 := by ring
        rw [expand]
        omega

/-- Functional write into the distance matrix, one `dist[[i, j]] = v`. -/
def matWrite (m : Nat × Nat → Int) (ij : Nat × Nat) (v : Int) : Nat × Nat → Int :=
  fun p => if p = ij then v else m p

/-- Histogram at a snapshot position. -/
def histAt (files : List VideoHash) (i : Nat) : List Nat :=
  (files.getD i default).histogram

/-- Value the source computes for the pair (i, j): `l1_distance` off the
diagonal and 0 on it. -/
def pairVal (files : List VideoHash) (i j : Nat) : Int :=
  if i ≠ j then l1_distance (histAt files i) (histAt files j) else 0

/-- Inner loop of `calculate_distances` (`videohash.rs` lines 264 to 278):
for j from i to n-1 write the pair value at (i, j) and mirror it at (j, i). -/
def innerLoop (files : List VideoHash) (i : Nat) (m : Nat × Nat → Int) : Nat × Nat → Int :=
  (List.range' i (files.length - i)).foldl
    (fun m j => matWrite (matWrite m (i, j) (pairVal files i j)) (j, i) (pairVal files i j)) m

/-- Translation of `calculate_distances`: start from the all-zero matrix and
run both loops. -/
def calculate_distances (files : List VideoHash) : Nat × Nat → Int :=
  (List.range files.length).foldl (fun m i => innerLoop files i m) fun _ => 0

theorem innerFold_char (files : List VideoHash) (i : Nat) :
    ∀ (len s : Nat) (m : Nat × Nat → Int) (p1 p2 : Nat),
      ((List.range' s len).foldl
        (fun m j => matWrite (matWrite m (i, j) (pairVal files i j)) (j, i)
          (pairVal files i j)) m) (p1, p2) =
      if p1 = i ∧ s ≤ p2 ∧ p2 < s + len then pairVal files i p2
      else if p2 = i ∧ s ≤ p1 ∧ p1 < s + len then pairVal files i p1
      else m (p1, p2) := by
  intro len
  induction len with
  | zero =>
    intro s m p1 p2
    have hnil : List.range' s 0 = [] := rfl
    rw [hnil, List.foldl_nil, if_neg (by omega), if_neg (by omega)]
  | succ len ih =>
    intro s m p1 p2
    rw [List.range'_succ s len 1, List.foldl_cons, ih (s + 1)]
    simp only [matWrite, Prod.mk.injEq]
    split_ifs <;> first
      | rfl
      | omega
      | (congr 1 <;> omega)
      | (exfalso; omega)

theorem outerFold_char (files : List VideoHash) :
    ∀ (k : Nat) (p1 p2 : Nat),
      ((List.range k).foldl (fun m i => innerLoop files i m) fun _ => 0) (p1, p2) =
      if p1 ≤ p2 ∧ p1 < k ∧ p2 < files.length then pairVal files p1 p2
      else if p2 ≤ p1 ∧ p2 < k ∧ p1 < files.length then pairVal files p2 p1
      else 0 := by
  intro k
  induction k with
  | zero =>
    intro p1 p2
    have hnil : List.range 0 = ([] : List Nat) := rfl
    rw [hnil, List.foldl_nil, if_neg (by omega), if_neg (by omega)]
  | succ k ih =>
    intro p1 p2
    rw [List.range_succ k, List.foldl_append, List.foldl_cons, List.foldl_nil, innerLoop,
      innerFold_char files k (files.length - k) k _ p1 p2]
    rw [ih p1 p2]
    split_ifs <;> first
      | rfl
      | omega
      | (congr 1 <;> omega)
      | (exfalso; omega)

theorem calculate_distances_char (files : List VideoHash) (p1 p2 : Nat)
    (h1 : p1 < files.length) (h2 : p2 < files.length) :
    calculate_distances files (p1, p2) =
      if p1 ≤ p2 then pairVal files p1 p2 else pairVal files p2 p1 := by
  rw [calculate_distances, outerFold_char]
  by_cases h : p1 ≤ p2
  · rw [if_pos ⟨h, by omega, h2⟩, if_pos h]
  · rw [if_neg (by omega), if_pos ⟨by omega, by omega, h1⟩, if_neg h]

/-- C9.  For a snapshot of files with 64-byte histograms the matrix built by
`calculate_distances` is zero on the diagonal and symmetric, and each
off-diagonal entry equals the Manhattan sum of the two histograms' absolute
byte differences, lying in 0..16320 — inside the i16 range the source
computes in, so the widened arithmetic never overflows. -/
theorem c9_distance_matrix_properties (files : List VideoHash)
    (hlen : ∀ f ∈ files, f.histogram.length = 64)
    (hbyte : ∀ f ∈ files, ∀ x ∈ f.histogram, x < 256)
    (i j : Nat) (hi : i < files.length) (hj : j < files.length) :
    calculate_distances files (i, i) = 0 ∧
    calculate_distances files (i, j) = calculate_distances files (j, i) ∧
    (i ≠ j →
      calculate_distances files (i, j) = l1Manhattan (histAt files i) (histAt files j) ∧
      0 ≤ calculate_distances files (i, j) ∧
      calculate_distances files (i, j) ≤ 16320) := by
  have hmem : ∀ a, a < files.length → files.getD a default ∈ files := by
    intro a ha
    rw [List.getD_eq_getElem files default ha]
    exact List.getElem_mem ha
  have hlenAt : ∀ a, a < files.length → (histAt files a).length = 64 := by
    intro a ha
    exact hlen (files.getD a default) (hmem a ha)
  have hbyteAt : ∀ a, a < files.length → ∀ x ∈ histAt files a, x < 256 := by
    intro a ha
    exact hbyte (files.getD a default) (hmem a ha)
  have hpair : ∀ a b, a < files.length → b < files.length → a ≠ b →
      pairVal files a b = l1Manhattan (histAt files a) (histAt files b) := by
    intro a b ha hb hab
    rw [pairVal, if_pos hab]
    exact l1_distance_eq_manhattan _ _ ((hlenAt a ha).trans (hlenAt b hb).symm)
  have hbound : ∀ a b, a < files.length → b < files.length →
      0 ≤ l1Manhattan (histAt files a) (histAt files b) ∧
      l1Manhattan (histAt files a) (histAt files b) ≤ 16320 := by
    intro a b ha hb
    obtain ⟨hb0, hb1⟩ := l1Manhattan_bound (histAt files a) (histAt files b)
      (hbyteAt a ha) (hbyteAt b hb)
    refine ⟨hb0, le_trans hb1 ?_⟩
    rw [hlenAt a ha, hlenAt b hb]
    norm_num
  refine ⟨?_, ?_, ?_⟩
  · rw [calculate_distances_char files i i hi hi, if_pos (le_refl i), pairVal]
    simp
  · rw [calculate_distances_char files i j hi hj, calculate_distances_char files j i hj hi]
    by_cases hij : i ≤ j
    · rw [if_pos hij]
      by_cases hji : j ≤ i
      · have heq : i = j := le_antisymm hij hji
        subst heq
        rw [if_pos (le_refl i)]
      · rw [if_neg hji]
    · rw [if_neg hij, if_pos (by omega)]
  · intro hne
    rw [calculate_distances_char files i j hi hj]
    by_cases hij : i ≤ j
    · rw [if_pos hij, hpair i j hi hj hne]
      exact ⟨rfl, (hbound i j hi hj).1, (hbound i j hi hj).2⟩
    · rw [if_neg hij, hpair j i hj hi (fun he => hne he.symm)]
      rw [l1Manhattan_comm]
      exact ⟨rfl, (hbound i j hi hj).1, (hbound i j hi hj).2⟩

/-- Two-file snapshot with constant 64-byte histograms. -/
def demoVideos : List VideoHash :=
  [⟨1, "/tmp/a.mp4", List.replicate 64 3, 10⟩, ⟨2, "/tmp/b.mp4", List.replicate 64 1, 11⟩]

/-- C9 witness: the matrix properties instantiated at a concrete two-file
snapshot and the index pair (0, 1). -/
theorem c9_distance_matrix_properties_witness :
    (∀ f ∈ demoVideos, f.histogram.length = 64) ∧
    (∀ f ∈ demoVideos, ∀ x ∈ f.histogram, x < 256) ∧
    (0 : Nat) < demoVideos.length ∧ (1 : Nat) < demoVideos.length ∧
    (calculate_distances demoVideos (0, 0) = 0 ∧
      calculate_distances demoVideos (0, 1) = calculate_distances demoVideos (1, 0) ∧
      ((0 : Nat) ≠ 1 →
        calculate_distances demoVideos (0, 1) =
          l1Manhattan (histAt demoVideos 0) (histAt demoVideos 1) ∧
        0 ≤ calculate_distances demoVideos (0, 1) ∧
        calculate_distances demoVideos (0, 1) ≤ 16320)) :=
  ⟨by decide, by decide, by decide, by decide,
    c9_distance_matrix_properties demoVideos (by decide) (by decide) 0 1 (by decide) (by decide)⟩

/-- Path-halving find (`videohash.rs`, nested function `_find`), with
explicit fuel: each iteration follows one parent link and halves the path,
so a fuel of the parent array length is enough for every input arising
below. -/
def ufFind : Nat → Nat → List Nat → Nat × List Nat
  | 0, x, parent => (x, parent)
  | fuel + 1, x, parent =>
    let px := parent.getD x x
    if px = x then (x, parent)
    else ufFind fuel px (parent.set x (parent.getD (parent.getD px px) px))

/-- Union by root relinking (nested function `_union`): no union by rank,
the first root is pointed at the second. -/
def ufUnion (x y : Nat) (parent : List Nat) : List Nat :=
  let fx := ufFind parent.length x parent
  let fy := ufFind fx.2.length y fx.2
  if fx.1 = fy.1 then fy.2 else fy.2.set fx.1 fy.1

/-- Append a file to the bag of its root in the accumulator association
list, preserving first-encounter order (the HashMap entry call of the
grouping loop). -/
def bagsAppend (acc : List (Nat × List VideoHash)) (root : Nat) (f : VideoHash) :
    List (Nat × List VideoHash) :=
  match acc with
  | [] => [(root, [f])]
  | e :: rest => if e.1 = root then (e.1, e.2 ++ [f]) :: rest else e :: bagsAppend rest root f

/-- Translation of `find_similar_files` (`videohash.rs` lines 280 to 333):
union every pair (i, j), j running from i to n-1, whose distance is below
the threshold, skipping outer indices i whose histogram is all zero — the
inner index j is not checked against all-zero — then group the files by
find-root and keep the groups of two or more. -/
def find_similar_files (files : List VideoHash) (dist : Nat × Nat → Int)
    (threshold : Int) : List (List VideoHash) :=
  let n := files.length
  let parent1 :=
    (List.range n).foldl
      (fun parent i =>
        if (files.getD i default).histogram.all fun x => x = 0 then parent
        else
          (List.range' i (n - i)).foldl
            (fun parent j => if dist (i, j) < threshold then ufUnion i j parent else parent)
            parent)
      (List.range n)
  let grouped :=
    (List.range n).foldl
      (fun acc idx =>
        let fr := ufFind acc.2.length idx acc.2
        (bagsAppend acc.1 fr.1 (files.getD idx default), fr.2))
      (([] : List (Nat × List VideoHash)), parent1)
  (grouped.1.map Prod.snd).filter fun b => 1 < b.length

/-- File whose 64-byte histogram starts with one nonzero byte. -/
def vidNearZero : VideoHash := ⟨1, "/tmp/a.mp4", 1 :: List.replicate 63 0, 10⟩

/-- File whose 64-byte histogram is entirely zero (a decode failure). -/
def vidAllZero : VideoHash := ⟨2, "/tmp/b.mp4", List.replicate 64 0, 11⟩

/-- C2, divergence witness.  The clusterer checks only the outer index for
an all-zero histogram, so the all-zero file at index 1 is unioned with the
near-zero file at index 0 (their L1 distance is 1, below the threshold 128)
and appears in the emitted group — the claim says neither member of a
unioned pair may be all-zero and that an all-zero histogram is never
grouped. -/
theorem c2_all_zero_histogram_grouped :
    (∀ x ∈ vidAllZero.histogram, x = 0) ∧
    calculate_distances [vidNearZero, vidAllZero] (0, 1) = 1 ∧
    find_similar_files [vidNearZero, vidAllZero]
      (calculate_distances [vidNearZero, vidAllZero]) 128 = [[vidNearZero, vidAllZero]] :=
  ⟨by decide, by decide, by decide⟩
